import Mathlib

/-!
Shallow embedding of the `embedded-image` crate (files `src/lib.rs` and
`src/transforms.rs`) and proofs about its specification claims.

Modelling conventions:
* `f32` values are modelled as exact numbers: the operations of `lib.rs`
  (casts, additions, multiplications, divisions) stay inside the rationals,
  so pixels are `ℚ`-valued and every buffer operation is executable; the
  transfer curves of `transforms.rs` use `powf` with non-integer exponents
  and are modelled over `ℝ` with `Real.rpow`.
* A Rust panic (the `assert_eq!` in `Image::from_bytes`, an out-of-bounds
  slice index in `bilinear`) is modelled as `none`, and so is the
  out-of-bounds `from_raw_parts` read (undefined behaviour) that
  `Image::from_bytes` performs when its wrapped `u32` size computations
  disagree.
* The `u32` products `width * height * 4` and `width * height` in
  `Image::from_bytes` wrap modulo `2^32` (release overflow semantics) and
  are modelled with explicit `% 2^32`.
* `Image::scale` and `bilinear` are embedded exactly as they appear in the
  source, including the stubbed interpolation coordinates (`x1`/`y1`/`x2`/`y2`
  are literally `0.` in the source, their clamped versions being commented
  out) and the `#[cfg(no)]`-disabled status is noted in the doc strings.
-/

/-- WorkPixel models `type WorkPixel = [f32; 4]` with channel order R, G, B, A. -/
structure WorkPixel where
  r : ℚ
  g : ℚ
  b : ℚ
  a : ℚ
  deriving DecidableEq, Repr

/-- Image models `struct Image { data: Vec<WorkPixel>, res: ResXY }` where
`res = (width, height)`. -/
structure Image where
  data : List WorkPixel
  res : ℕ × ℕ
  deriving DecidableEq, Repr

/-- Regrouping of the input byte slice as `*const RawPixel` in
`Image::from_bytes`: each consecutive 4-byte group `[r,g,b,a]` becomes one
pixel, every channel cast as-is (`f.map(|f| f as f32)`; the normalisation
`/ 255.` present in the source is commented out). -/
def toPixels : List ℕ → List WorkPixel
  | r :: g :: b :: a :: rest => ⟨(r : ℚ), (g : ℚ), (b : ℚ), (a : ℚ)⟩ :: toPixels rest
  | _ => []

/-- Image.from_bytes models `Image::from_bytes(data, res)`.  The source
computes `size = (width * height * 4) as usize` and
`len = (width * height) as usize` in `u32` arithmetic, which wraps modulo
`2^32` under release semantics, so both products are reduced `% 2^32` here.
The `assert_eq!(data.len(), size)` panic is modelled as `none`.  The
`from_raw_parts(data, len)` read is an out-of-bounds read (undefined
behaviour in the source) when `4 * len` exceeds `data.len()`; that case is
also modelled as `none`.  Otherwise `len` RGBA pixels are read from the
front of `data`, each channel cast as-is. -/
def Image.from_bytes (data : List ℕ) (res : ℕ × ℕ) : Option Image :=
  let size := res.1 * res.2 * 4 % 2 ^ 32
  let len := res.1 * res.2 % 2 ^ 32
  if data.length = size then
    if 4 * len ≤ data.length then
      some { data := toPixels (data.take (4 * len)), res := res }
    else
      none
  else
    none

/-- Image.swap_rgb models `Image::swap_rgb`:
`*p = [p[2], p[1], p[0], p[3]]` for every pixel. -/
def Image.swap_rgb (img : Image) : Image :=
  { img with data := img.data.map fun p => ⟨p.b, p.g, p.r, p.a⟩ }

/-- Lib.srgb_to_rgb is the scalar `srgb_to_rgb` local to `lib.rs` (not the
one from `transforms.rs`; `lib.rs` has no `mod transforms`).  The
`.powf(GAMMA)` call on the second branch is commented out in the source, so
that branch is `(f + A) / (1. + A)` with `A = 0.055`. -/
def Lib.srgb_to_rgb (f : ℚ) : ℚ :=
  if f ≤ 0.04045 then f / 12.92 else (f + 0.055) / (1 + 0.055)

/-- Lib.rgb_to_srgb is the scalar `rgb_to_srgb` local to `lib.rs`.  The
`.powf(1. / GAMMA) - A` part of the second branch is commented out in the
source, so that branch is `(1. + A) * f`. -/
def Lib.rgb_to_srgb (f : ℚ) : ℚ :=
  if f ≤ 0.0031308 then 12.92 * f else (1 + 0.055) * f

/-- Image.srgb_to_rgb models `Image::srgb_to_rgb`: for every pixel, apply the
scalar `srgb_to_rgb` to the first three channels, multiply by the row-major
CIE matrix `[0.4124, 0.3576, 0.1805; 0.2126, 0.7152, 0.0722; 0.0193, 0.1192,
0.9505]`, and keep the alpha channel (`*p = [n[0], n[1], n[2], p[3]]`). -/
def Image.srgb_to_rgb (img : Image) : Image :=
  { img with
    data := img.data.map fun p =>
      let n0 := Lib.srgb_to_rgb p.r
      let n1 := Lib.srgb_to_rgb p.g
      let n2 := Lib.srgb_to_rgb p.b
      ⟨0.4124 * n0 + 0.3576 * n1 + 0.1805 * n2,
       0.2126 * n0 + 0.7152 * n1 + 0.0722 * n2,
       0.0193 * n0 + 0.1192 * n1 + 0.9505 * n2,
       p.a⟩ }

/-- Image.rgb_to_srgb models `Image::rgb_to_srgb`: for every pixel, multiply
(R,G,B) by the row-major CIE matrix `[3.2406, -1.5372, -0.4986; -0.9689,
1.8758, 0.0415; 0.0557, -0.2040, 1.0570]`, apply the scalar `rgb_to_srgb` to
each resulting component, and keep the alpha channel. -/
def Image.rgb_to_srgb (img : Image) : Image :=
  { img with
    data := img.data.map fun p =>
      let q0 := 3.2406 * p.r + (-1.5372) * p.g + (-0.4986) * p.b
      let q1 := (-0.9689) * p.r + 1.8758 * p.g + 0.0415 * p.b
      let q2 := 0.0557 * p.r + (-0.2040) * p.g + 1.0570 * p.b
      ⟨Lib.rgb_to_srgb q0, Lib.rgb_to_srgb q1, Lib.rgb_to_srgb q2, p.a⟩ }

/-- Image.gamma_to_rgb models `Image::gamma_to_rgb`: every `.powf(2.2)` call
is commented out in the source, so every channel is copied unchanged. -/
def Image.gamma_to_rgb (img : Image) : Image :=
  { img with data := img.data.map fun p => ⟨p.r, p.g, p.b, p.a⟩ }

/-- Image.rgb_to_gamma models `Image::rgb_to_gamma`: every `.powf(1.0 / 2.2)`
call is commented out in the source, so every channel is copied unchanged. -/
def Image.rgb_to_gamma (img : Image) : Image :=
  { img with data := img.data.map fun p => ⟨p.r, p.g, p.b, p.a⟩ }

/-- Componentwise scalar multiplication of a pixel, as performed by the
`nalgebra` `Matrix4x1` scalar products inside `bilinear`. -/
def WorkPixel.smul (c : ℚ) (p : WorkPixel) : WorkPixel :=
  ⟨c * p.r, c * p.g, c * p.b, c * p.a⟩

/-- Componentwise addition of pixels, as performed by the `nalgebra`
`Matrix4x1` sums inside `bilinear`. -/
def WorkPixel.add (p q : WorkPixel) : WorkPixel :=
  ⟨p.r + q.r, p.g + q.g, p.b + q.b, p.a + q.a⟩

/-- Faithful embedding of `fn bilinear` from `lib.rs` (the function is under
`#[cfg(no)]`).  The interpolation coordinates `x1, y1, x2, y2` are literally
`0.` in the source (their `floor`/`ceil`/`min` computations are commented
out), all four `Q` lookups therefore read index `0`, and the alpha read
`pixels[(y * width) + x][3]` can go out of bounds (modelled as `none`).
The computed `alpha` is never used in the returned value. -/
def bilinear (xy : ℕ × ℕ) (scale : ℚ × ℚ) (src : ℕ × ℕ)
    (pixels : List WorkPixel) : Option WorkPixel := do
  let x_ : ℚ := (xy.1 : ℚ) / scale.1
  let y_ : ℚ := (xy.2 : ℚ) / scale.2
  let _alpha ← (pixels[xy.2 * src.1 + xy.1]?).map WorkPixel.a
  let x1 : ℚ := 0
  let y1 : ℚ := 0
  let x2 : ℚ := 0
  let y2 : ℚ := 0
  let q11 ← pixels[0]?
  let q12 ← pixels[0]?
  let _q21 ← pixels[0]?
  let q22 ← pixels[0]?
  let p1 := if x1 = x2 then q11 else (WorkPixel.smul (x2 - x_) q11).add (WorkPixel.smul (x_ - x1) q12)
  let p2 := if x1 = x2 then q22 else (WorkPixel.smul (x2 - x_) q12).add (WorkPixel.smul (x_ - x1) q22)
  pure ((WorkPixel.smul (y2 - y_) p1).add (WorkPixel.smul (y_ - y1) p2))

/-- Sequential collection of an option-producing loop body, modelling the
`for` loops of `Image::scale` that fill `out` cell by cell. -/
def mapMOpt {α β : Type} (f : α → Option β) : List α → Option (List β)
  | [] => some []
  | x :: xs => do
    let y ← f x
    let ys ← mapMOpt f xs
    pure (y :: ys)

/-- Image.scale models `Image::scale` (the method is under `#[cfg(no)]`): if
the new resolution equals the current one it returns unchanged, otherwise it
computes `x_scale = new_width / width`, `y_scale = new_height / height` and
fills the output row by row with `bilinear`, writing cell `(y * new_width) + x`
for `y < new_height`, `x < new_width`, then stores the new resolution. -/
def Image.scale (img : Image) (new : ℕ × ℕ) : Option Image :=
  if img.res = new then some img
  else
    let x_scale : ℚ := (new.1 : ℚ) / (img.res.1 : ℚ)
    let y_scale : ℚ := (new.2 : ℚ) / (img.res.2 : ℚ)
    (mapMOpt (fun y =>
        mapMOpt (fun x => bilinear (x, y) (x_scale, y_scale) img.res img.data)
          (List.range new.1))
      (List.range new.2)).map
      fun rows => { data := rows.flatten, res := new }

/-- Transforms.srgb_to_rgb models `srgb_to_rgb` from `transforms.rs`
(sRGB-encoded to linear), with the source's constants `A = 0.055`,
`GAMMA = 2.4`, `PHI = 12.92`, `C = 0.04045`. -/
noncomputable def Transforms.srgb_to_rgb (c : ℝ) : ℝ :=
  if c ≤ 0.04045 then c / 12.92 else ((c + 0.055) / (1 + 0.055)) ^ (2.4 : ℝ)

/-- Transforms.rgb_to_srgb models `rgb_to_srgb` from `transforms.rs`
(linear to sRGB-encoded), with the source's constants `A = 0.055`,
`GAMMA = 2.4`, `PHI = 12.92`, `C = 0.0031308`. -/
noncomputable def Transforms.rgb_to_srgb (c : ℝ) : ℝ :=
  if c ≤ 0.0031308 then 12.92 * c else (1 + 0.055) * c ^ ((1 : ℝ) / 2.4) - 0.055

/-- Transforms.gamma_to_rgb models `gamma_to_rgb` from `transforms.rs`:
`c.powf(2.2)`. -/
noncomputable def Transforms.gamma_to_rgb (c : ℝ) : ℝ :=
  c ^ (2.2 : ℝ)

/-- Transforms.rgb_to_gamma models `rgb_to_gamma` from `transforms.rs`:
`c.powf(1.0 / 2.2)`. -/
noncomputable def Transforms.rgb_to_gamma (c : ℝ) : ℝ :=
  c ^ ((1 : ℝ) / 2.2)

/-! ### Helper lemmas -/

/-- toPixels produces one pixel per 4-byte group. -/
theorem toPixels_length (l : List ℕ) : (toPixels l).length = l.length / 4 := by
  induction l using toPixels.induct with
  | case1 r g b a rest ih =>
      simp [toPixels, ih]
      omega
  | case2 l h =>
      match l, h with
      | [], _ => simp [toPixels]
      | [_], _ => simp [toPixels]
      | [_, _], _ => simp [toPixels]
      | [_, _, _], _ => simp [toPixels]
      | r :: g :: b :: a :: rest, h => exact absurd rfl (h r g b a rest)

/-- Every channel of every pixel produced by toPixels is the cast of one of
the input bytes. -/
theorem toPixels_channels (l : List ℕ) :
    ∀ p ∈ toPixels l, (∃ x ∈ l, p.r = (x : ℚ)) ∧ (∃ x ∈ l, p.g = (x : ℚ)) ∧
      (∃ x ∈ l, p.b = (x : ℚ)) ∧ (∃ x ∈ l, p.a = (x : ℚ)) := by
  induction l using toPixels.induct with
  | case1 r g b a rest ih =>
      intro p hp
      rw [toPixels] at hp
      rcases List.mem_cons.mp hp with hp | hp
      · subst hp
        refine ⟨⟨r, by simp, rfl⟩, ⟨g, by simp, rfl⟩, ⟨b, by simp, rfl⟩, ⟨a, by simp, rfl⟩⟩
      · obtain ⟨⟨xr, hxr, er⟩, ⟨xg, hxg, eg⟩, ⟨xb, hxb, eb⟩, ⟨xa, hxa, ea⟩⟩ := ih p hp
        exact ⟨⟨xr, by simp [hxr], er⟩, ⟨xg, by simp [hxg], eg⟩,
          ⟨xb, by simp [hxb], eb⟩, ⟨xa, by simp [hxa], ea⟩⟩
  | case2 l h =>
      match l, h with
      | [], _ => intro p hp; simp [toPixels] at hp
      | [_], _ => intro p hp; simp [toPixels] at hp
      | [_, _], _ => intro p hp; simp [toPixels] at hp
      | [_, _, _], _ => intro p hp; simp [toPixels] at hp
      | r :: g :: b :: a :: rest, h => exact absurd rfl (h r g b a rest)

/-- mapMOpt succeeds with a list of the same length. -/
theorem mapMOpt_length {α β : Type} (f : α → Option β) :
    ∀ (l : List α) (l' : List β), mapMOpt f l = some l' → l'.length = l.length := by
  intro l
  induction l with
  | nil => intro l' h; simp [mapMOpt] at h; simp [← h]
  | cons x xs ih =>
      intro l' h
      simp [mapMOpt, Option.bind_eq_some] at h
      obtain ⟨y, _, ys, hys, rfl⟩ := h
      simp [ih ys hys]

/-- Every element of a successful mapMOpt run is the image of some input. -/
theorem mapMOpt_mem {α β : Type} (f : α → Option β) :
    ∀ (l : List α) (l' : List β), mapMOpt f l = some l' →
      ∀ b ∈ l', ∃ a ∈ l, f a = some b := by
  intro l
  induction l with
  | nil => intro l' h; simp [mapMOpt] at h; simp [h]
  | cons x xs ih =>
      intro l' h
      simp [mapMOpt, Option.bind_eq_some] at h
      obtain ⟨y, hy, ys, hys, rfl⟩ := h
      intro b hb
      rcases List.mem_cons.mp hb with hb | hb
      · exact ⟨x, by simp, hb ▸ hy⟩
      · obtain ⟨a, ha, hfa⟩ := ih ys hys b hb
        exact ⟨a, by simp [ha], hfa⟩

/-- Sum of a list whose elements are all equal. -/
theorem sum_of_const (l : List ℕ) (m : ℕ) (h : ∀ x ∈ l, x = m) :
    l.sum = l.length * m := by
  induction l with
  | nil => simp
  | cons x xs ih =>
      have hx := h x (by simp)
      have hxs := ih fun y hy => h y (by simp [hy])
      simp [hx, hxs]
      ring

/-- Anatomy of a successful `Image::from_bytes` call: the input length
equals the wrapped byte size, the guarded read then covers exactly the whole
input (the wrapped byte size never exceeds four times the wrapped pixel
count), and the resulting buffer is the regrouped input with the requested
resolution. -/
theorem from_bytes_reads_all (data : List ℕ) (res : ℕ × ℕ) (img : Image)
    (hok : Image.from_bytes data res = some img) :
    data.length = res.1 * res.2 * 4 % 2 ^ 32 ∧
    img.data = toPixels data ∧ img.res = res := by
  by_cases h1 : data.length = res.1 * res.2 * 4 % 2 ^ 32
  · by_cases h2 : 4 * (res.1 * res.2 % 2 ^ 32) ≤ data.length
    · simp only [Image.from_bytes] at hok
      rw [if_pos h1, if_pos h2] at hok
      simp only [Option.some.injEq] at hok
      have hkey : data.length ≤ 4 * (res.1 * res.2 % 2 ^ 32) := by
        rw [h1]
        have hx : ∀ x : ℕ, x * 4 % 2 ^ 32 ≤ 4 * (x % 2 ^ 32) := by
          intro x
          omega
        exact hx (res.1 * res.2)
      have htake : data.take (4 * (res.1 * res.2 % 2 ^ 32)) = data :=
        List.take_of_length_le hkey
      rw [htake] at hok
      exact ⟨h1, by rw [← hok], by rw [← hok]⟩
    · simp only [Image.from_bytes] at hok
      rw [if_pos h1, if_neg h2] at hok
      exact absurd hok (by simp)
  · simp only [Image.from_bytes] at hok
    rw [if_neg h1] at hok
    exact absurd hok (by simp)

/-! ### Claim C1 -/

/-- C1 counterexample: the claim predicts that `Image::from_bytes` on the
4-byte input `[255,0,0,255]` at resolution `(1,1)` yields the pixel
`(1.0, 0.0, 0.0, 1.0)`.  The code casts channels as-is (the `/ 255.` is
commented out), so the pixel is `(255, 0, 0, 255)` and not `(1, 0, 0, 1)`. -/
theorem from_bytes_not_normalised :
    Image.from_bytes [255, 0, 0, 255] (1, 1) =
      some { data := [⟨255, 0, 0, 255⟩], res := (1, 1) } ∧
    Image.from_bytes [255, 0, 0, 255] (1, 1) ≠
      some { data := [⟨1, 0, 0, 1⟩], res := (1, 1) } := by
  constructor
  · simp [Image.from_bytes, toPixels]
  · simp [Image.from_bytes, toPixels]

/-- C1 (amended): `Image::from_bytes` produces one pixel per 4-byte RGBA
group with each channel cast to a float as-is (no division by 255), so for
byte inputs (each at most 255) every resulting sample lies in `[0, 255]`;
in particular the 4-byte input `[255,0,0,255]` at resolution `(1,1)` yields
the single pixel `(255.0, 0.0, 0.0, 255.0)`. -/
theorem from_bytes_casts_as_is (data : List ℕ) (w h : ℕ) (img : Image)
    (hbytes : ∀ x ∈ data, x ≤ 255)
    (hok : Image.from_bytes data (w, h) = some img) :
    img.data = toPixels data ∧
    (∀ r g b a rest, toPixels (r :: g :: b :: a :: rest) =
        ⟨(r : ℚ), (g : ℚ), (b : ℚ), (a : ℚ)⟩ :: toPixels rest) ∧
    (∀ p ∈ img.data,
      (0 ≤ p.r ∧ p.r ≤ 255) ∧ (0 ≤ p.g ∧ p.g ≤ 255) ∧
      (0 ≤ p.b ∧ p.b ≤ 255) ∧ (0 ≤ p.a ∧ p.a ≤ 255)) ∧
    Image.from_bytes [255, 0, 0, 255] (1, 1) =
      some { data := [⟨255, 0, 0, 255⟩], res := (1, 1) } := by
  have hdata : img.data = toPixels data := (from_bytes_reads_all data (w, h) img hok).2.1
  refine ⟨hdata, fun r g b a rest => rfl, ?_, by simp [Image.from_bytes, toPixels]⟩
  intro p hp
  rw [hdata] at hp
  obtain ⟨⟨xr, hxr, er⟩, ⟨xg, hxg, eg⟩, ⟨xb, hxb, eb⟩, ⟨xa, hxa, ea⟩⟩ :=
    toPixels_channels data p hp
  have br := hbytes xr hxr
  have bg := hbytes xg hxg
  have bb := hbytes xb hxb
  have ba := hbytes xa hxa
  refine ⟨⟨?_, ?_⟩, ⟨?_, ?_⟩, ⟨?_, ?_⟩, ⟨?_, ?_⟩⟩ <;>
    simp [er, eg, eb, ea] <;> exact_mod_cast ‹_ ≤ 255›

/-- C1 witness: the amended theorem applied to the concrete input
`[255,0,0,255]` at resolution `(1,1)`. -/
theorem from_bytes_casts_as_is_witness :
    ({ data := [⟨255, 0, 0, 255⟩], res := (1, 1) } : Image).data =
        toPixels [255, 0, 0, 255] ∧
    (∀ r g b a rest, toPixels (r :: g :: b :: a :: rest) =
        ⟨(r : ℚ), (g : ℚ), (b : ℚ), (a : ℚ)⟩ :: toPixels rest) ∧
    (∀ p ∈ ({ data := [⟨255, 0, 0, 255⟩], res := (1, 1) } : Image).data,
      (0 ≤ p.r ∧ p.r ≤ 255) ∧ (0 ≤ p.g ∧ p.g ≤ 255) ∧
      (0 ≤ p.b ∧ p.b ≤ 255) ∧ (0 ≤ p.a ∧ p.a ≤ 255)) ∧
    Image.from_bytes [255, 0, 0, 255] (1, 1) =
      some { data := [⟨255, 0, 0, 255⟩], res := (1, 1) } :=
  from_bytes_casts_as_is [255, 0, 0, 255] 1 1
    { data := [⟨255, 0, 0, 255⟩], res := (1, 1) }
    (by decide)
    (by simp [Image.from_bytes, toPixels])

/-! ### Claim C2 -/

/-- C2 counterexample: the claim says the per-pixel buffer pass
`Image::gamma_to_rgb` applies `c ^ 2.2` to every channel.  On the single
pixel `(1/2, 0, 0, 1)` the buffer pass returns the pixel unchanged, while
the true decode of the channel value `1/2` (the scalar `gamma_to_rgb` from
`transforms.rs`, i.e. `(1/2) ^ 2.2`) is not `1/2`. -/
theorem gamma_buffer_pass_skips_pow :
    Image.gamma_to_rgb { data := [⟨1/2, 0, 0, 1⟩], res := (1, 1) } =
      { data := [⟨1/2, 0, 0, 1⟩], res := (1, 1) } ∧
    Transforms.gamma_to_rgb (1/2) ≠ (1/2 : ℝ) := by
  constructor
  · rfl
  · have hlt : ((1:ℝ)/2) ^ (2.2 : ℝ) < ((1:ℝ)/2) ^ (1 : ℝ) :=
      Real.rpow_lt_rpow_of_exponent_gt (by norm_num) (by norm_num) (by norm_num)
    rw [Real.rpow_one] at hlt
    simpa [Transforms.gamma_to_rgb] using ne_of_lt hlt

/-- C2 (amended): the scalar simple-gamma transfer functions from
`transforms.rs` satisfy `gamma_to_rgb c = c ^ 2.2` and
`rgb_to_gamma c = c ^ (1/2.2)` for every channel value, but the per-pixel
buffer passes `Image::gamma_to_rgb` and `Image::rgb_to_gamma` do not apply
the curve: their `powf` calls are commented out and they leave every pixel
(and hence the whole buffer) unchanged. -/
theorem gamma_curves (c : ℝ) (img : Image) :
    Transforms.gamma_to_rgb c = c ^ (2.2 : ℝ) ∧
    Transforms.rgb_to_gamma c = c ^ ((1 : ℝ) / 2.2) ∧
    Image.gamma_to_rgb img = img ∧
    Image.rgb_to_gamma img = img := by
  refine ⟨rfl, rfl, ?_, ?_⟩ <;>
  · cases img with
    | mk data res =>
        simp only [Image.gamma_to_rgb, Image.rgb_to_gamma]
        congr
        exact List.map_id data

/-! ### Claim C3 -/

/-- C3: the sRGB transfer functions of `transforms.rs` compute the piecewise
sRGB curve: the forward direction returns `c / 12.92` when `c ≤ 0.04045` and
`((c + 0.055) / 1.055) ^ 2.4` otherwise; the inverse returns `12.92 * c`
when `c ≤ 0.0031308` and `1.055 * c ^ (1/2.4) - 0.055` otherwise. -/
theorem srgb_piecewise_curve (c : ℝ) :
    Transforms.srgb_to_rgb c =
      (if c ≤ 0.04045 then c / 12.92 else ((c + 0.055) / 1.055) ^ (2.4 : ℝ)) ∧
    Transforms.rgb_to_srgb c =
      (if c ≤ 0.0031308 then 12.92 * c
       else 1.055 * c ^ ((1 : ℝ) / 2.4) - 0.055) := by
  constructor <;>
    simp only [Transforms.srgb_to_rgb, Transforms.rgb_to_srgb] <;>
    split_ifs <;> norm_num

/-! ### Claim C5 -/

/-- C5: every color-space conversion pass (`Image::srgb_to_rgb`,
`Image::rgb_to_srgb`, `Image::gamma_to_rgb`, `Image::rgb_to_gamma`) leaves
the alpha channel of every pixel exactly unchanged. -/
theorem conversions_preserve_alpha (img : Image) :
    (Image.srgb_to_rgb img).data.map WorkPixel.a = img.data.map WorkPixel.a ∧
    (Image.rgb_to_srgb img).data.map WorkPixel.a = img.data.map WorkPixel.a ∧
    (Image.gamma_to_rgb img).data.map WorkPixel.a = img.data.map WorkPixel.a ∧
    (Image.rgb_to_gamma img).data.map WorkPixel.a = img.data.map WorkPixel.a := by
  refine ⟨?_, ?_, ?_, ?_⟩ <;>
    simp only [Image.srgb_to_rgb, Image.rgb_to_srgb, Image.gamma_to_rgb,
      Image.rgb_to_gamma, List.map_map] <;> rfl

/-! ### Claim C7 -/

/-- C7: calling `Image::scale` with a target resolution equal to the
buffer's current resolution returns the buffer unchanged. -/
theorem scale_identity (img : Image) :
    Image.scale img img.res = some img := by
  simp [Image.scale]

/-! ### Claim C8 -/

/-- C8 counterexample: at resolution `(65536, 65536)` the `u32` product
`width * height * 4` wraps to `0`, so the empty input passes the length
assertion and a buffer IS produced, although its length `0` differs from
`width * height * 4 = 2^34`.  This falsifies the universal claim that
construction fails whenever the input length differs from
`width * height * 4`. -/
theorem from_bytes_wrapping_accepts :
    Image.from_bytes [] (65536, 65536) =
      some { data := [], res := (65536, 65536) } ∧
    ([] : List ℕ).length ≠ 65536 * 65536 * 4 := by
  constructor
  · simp [Image.from_bytes, toPixels]
  · simp

/-- C8 (amended): `Image::from_bytes` computes its expected byte size in
`u32` arithmetic, so construction fails (assertion, no buffer produced)
whenever the input length differs from `width * height * 4` reduced modulo
`2^32`; when `width * height * 4 < 2^32` this wrap-around is the identity
and the original condition applies, as at resolution `(2,2)` with a 10-byte
input. -/
theorem from_bytes_invalid_length (data : List ℕ) (res : ℕ × ℕ)
    (hlen : data.length ≠ res.1 * res.2 * 4 % 2 ^ 32) :
    Image.from_bytes data res = none := by
  simp only [Image.from_bytes]
  rw [if_neg hlen]

/-- C8 witness: resolution `(2,2)` with a 10-byte input fails
(`2 * 2 * 4 % 2^32 = 16 ≠ 10`). -/
theorem from_bytes_invalid_length_witness :
    Image.from_bytes [0, 0, 0, 0, 0, 0, 0, 0, 0, 0] (2, 2) = none :=
  from_bytes_invalid_length [0, 0, 0, 0, 0, 0, 0, 0, 0, 0] (2, 2) (by norm_num)

/-! ### Claim C10 -/

/-- C10: `Image::swap_rgb` swaps channels 0 and 2 (R and B) of every pixel,
keeps channels 1 and 3 (G and A), and applying it twice restores the buffer
exactly. -/
theorem swap_rgb_involution (img : Image) :
    (Image.swap_rgb img).data = img.data.map (fun p => ⟨p.b, p.g, p.r, p.a⟩) ∧
    Image.swap_rgb (Image.swap_rgb img) = img := by
  refine ⟨rfl, ?_⟩
  cases img with
  | mk data res =>
      simp only [Image.swap_rgb, List.map_map]
      congr
      exact List.map_id data

/-! ### Claim C9 -/

/-- Shape of a successful `Image::scale` call: the output has exactly
`new_width * new_height` pixels and carries the new resolution, provided the
input buffer satisfies the `samples.length == width * height` invariant. -/
theorem scale_shape (img : Image) (new : ℕ × ℕ) (img' : Image)
    (hinv : img.data.length = img.res.1 * img.res.2)
    (hs : Image.scale img new = some img') :
    img'.data.length = new.1 * new.2 ∧ img'.res = new := by
  by_cases he : img.res = new
  · simp [Image.scale, he] at hs
    subst hs
    exact ⟨by rw [hinv, he], he⟩
  · simp only [Image.scale, he, if_false, Option.map_eq_some'] at hs
    obtain ⟨rows, hrows, himg⟩ := hs
    subst himg
    refine ⟨?_, rfl⟩
    simp only [List.length_flatten]
    have hlen : rows.length = new.2 := by
      simpa using mapMOpt_length _ _ _ hrows
    have hrow : ∀ n ∈ rows.map List.length, n = new.1 := by
      intro n hn
      obtain ⟨row, hrmem, rfl⟩ := List.mem_map.mp hn
      obtain ⟨y, _, hfy⟩ := mapMOpt_mem _ _ _ hrows row hrmem
      simpa using mapMOpt_length _ _ _ hfy
  
    rw [sum_of_const _ _ hrow]
    simp [hlen]
    ring

/-- C9 counterexample: the buffer constructed at the wrapping resolution
`(65536, 65536)` (where the `u32` products wrap to `0`) has `0` samples
while `width * height = 2^32`, so `samples.length == width * height` fails
immediately after construction.  This falsifies the universal invariant
claim. -/
theorem shape_invariant_wrap_violation :
    Image.from_bytes [] (65536, 65536) =
      some { data := [], res := (65536, 65536) } ∧
    ({ data := [], res := (65536, 65536) } : Image).data.length ≠
      65536 * 65536 := by
  constructor
  · simp [Image.from_bytes, toPixels]
  · simp

/-- C9 (amended): at every resolution whose byte size does not overflow
`u32` (`w * h * 4 < 2^32`), the `samples.length == width * height`
invariant holds after construction and after every operation: a buffer
built by `Image::from_bytes` at resolution `(w, h)` has `w * h` pixels and
stores that resolution, each color conversion and the channel swap keep the
pixel count, and a successful `Image::scale` to `(nw, nh)` yields exactly
`nw * nh` pixels and stores `(nw, nh)`. -/
theorem shape_invariant (data : List ℕ) (w h : ℕ) (img : Image)
    (hfit : w * h * 4 < 2 ^ 32)
    (hok : Image.from_bytes data (w, h) = some img)
    (nw nh : ℕ) (img' : Image)
    (hs : Image.scale img (nw, nh) = some img') :
    img.data.length = w * h ∧ img.res = (w, h) ∧
    (Image.srgb_to_rgb img).data.length = w * h ∧
    (Image.rgb_to_srgb img).data.length = w * h ∧
    (Image.gamma_to_rgb img).data.length = w * h ∧
    (Image.rgb_to_gamma img).data.length = w * h ∧
    (Image.swap_rgb img).data.length = w * h ∧
    img'.data.length = nw * nh ∧ img'.res = (nw, nh) := by
  obtain ⟨hlen, hdata, hres⟩ := from_bytes_reads_all data (w, h) img hok
  have hlen4 : data.length = w * h * 4 := by
    have e : w * h * 4 % 2 ^ 32 = w * h * 4 := Nat.mod_eq_of_lt hfit
    rw [← e]
    exact hlen
  have hcount : img.data.length = w * h := by
    rw [hdata, toPixels_length, hlen4]
    omega
  have hshape := scale_shape img (nw, nh) img' (by rw [hcount, hres]) hs
  refine ⟨hcount, hres, ?_, ?_, ?_, ?_, ?_, hshape.1, hshape.2⟩ <;>
    simp only [Image.srgb_to_rgb, Image.rgb_to_srgb, Image.gamma_to_rgb,
      Image.rgb_to_gamma, Image.swap_rgb, List.length_map] <;>
    exact hcount

/-- C9 witness: the shape invariant at the concrete input `[7,8,9,10]`,
resolution `(1,1)` (no wrap-around), scaled (identically) to `(1,1)`. -/
theorem shape_invariant_witness :
    ({ data := [⟨7, 8, 9, 10⟩], res := (1, 1) } : Image).data.length = 1 * 1 ∧
    ({ data := [⟨7, 8, 9, 10⟩], res := (1, 1) } : Image).res = (1, 1) ∧
    (Image.srgb_to_rgb { data := [⟨7, 8, 9, 10⟩], res := (1, 1) }).data.length = 1 * 1 ∧
    (Image.rgb_to_srgb { data := [⟨7, 8, 9, 10⟩], res := (1, 1) }).data.length = 1 * 1 ∧
    (Image.gamma_to_rgb { data := [⟨7, 8, 9, 10⟩], res := (1, 1) }).data.length = 1 * 1 ∧
    (Image.rgb_to_gamma { data := [⟨7, 8, 9, 10⟩], res := (1, 1) }).data.length = 1 * 1 ∧
    (Image.swap_rgb { data := [⟨7, 8, 9, 10⟩], res := (1, 1) }).data.length = 1 * 1 ∧
    ({ data := [⟨7, 8, 9, 10⟩], res := (1, 1) } : Image).data.length = 1 * 1 ∧
    ({ data := [⟨7, 8, 9, 10⟩], res := (1, 1) } : Image).res = (1, 1) :=
  shape_invariant [7, 8, 9, 10] 1 1 { data := [⟨7, 8, 9, 10⟩], res := (1, 1) }
    (by norm_num) (by simp [Image.from_bytes, toPixels]) 1 1
    { data := [⟨7, 8, 9, 10⟩], res := (1, 1) }
    (by simp [Image.scale])

/-! ### Claim C6 -/

/-- C6 failing input: `Image::scale` (as written: `bilinear` with its
interpolation coordinates stubbed to `0.`) maps a 3x3 buffer whose corner
pixel is `(1,1,1,1)` to a 2x2 buffer consisting entirely of zero pixels, so
the destination corner `(0,0)` does not equal the source corner `(0,0)`. -/
theorem scale_corner_not_exact :
    Image.scale
        { data := [⟨1, 1, 1, 1⟩, ⟨2, 2, 2, 2⟩, ⟨3, 3, 3, 3⟩,
                   ⟨4, 4, 4, 4⟩, ⟨5, 5, 5, 5⟩, ⟨6, 6, 6, 6⟩,
                   ⟨7, 7, 7, 7⟩, ⟨8, 8, 8, 8⟩, ⟨9, 9, 9, 9⟩],
          res := (3, 3) } (2, 2) =
      some { data := [⟨0, 0, 0, 0⟩, ⟨0, 0, 0, 0⟩, ⟨0, 0, 0, 0⟩, ⟨0, 0, 0, 0⟩],
             res := (2, 2) } ∧
    (⟨0, 0, 0, 0⟩ : WorkPixel) ≠ ⟨1, 1, 1, 1⟩ := by
  constructor
  · simp [Image.scale, mapMOpt, bilinear, WorkPixel.smul, WorkPixel.add,
      List.range_succ]
  · simp

/-! ### Claim C4 -/

/-- Comparing a power with rational exponent `p/q` against a bound reduces to
integer powers. -/
theorem rpow_div_le_iff_pow (x y : ℝ) (p q : ℕ) (hq : 0 < q)
    (hx : 0 ≤ x) (hy : 0 ≤ y) :
    x ^ ((p : ℝ) / (q : ℝ)) ≤ y ↔ x ^ p ≤ y ^ q := by
  have key : (x ^ ((p : ℝ) / (q : ℝ))) ^ q = x ^ p := by
    rw [← Real.rpow_natCast (x ^ ((p : ℝ) / (q : ℝ))) q, ← Real.rpow_mul hx,
        div_mul_cancel₀, Real.rpow_natCast]
    exact_mod_cast hq.ne'
  constructor
  · intro h1
    rw [← key]
    exact pow_le_pow_left₀ (Real.rpow_nonneg hx _) h1 q
  · intro h1
    exact le_of_pow_le_pow_left₀ hq.ne' hy (key ▸ h1)

/-- Lower-bounding a power with rational exponent `p/q` reduces to integer
powers. -/
theorem le_rpow_div_iff_pow (x y : ℝ) (p q : ℕ) (hq : 0 < q)
    (hx : 0 ≤ x) (hy : 0 ≤ y) :
    y ≤ x ^ ((p : ℝ) / (q : ℝ)) ↔ y ^ q ≤ x ^ p := by
  have key : (x ^ ((p : ℝ) / (q : ℝ))) ^ q = x ^ p := by
    rw [← Real.rpow_natCast (x ^ ((p : ℝ) / (q : ℝ))) q, ← Real.rpow_mul hx,
        div_mul_cancel₀, Real.rpow_natCast]
    exact_mod_cast hq.ne'
  constructor
  · intro h1
    rw [← key]
    exact pow_le_pow_left₀ hy h1 q
  · intro h1
    exact le_of_pow_le_pow_left₀ hq.ne' (Real.rpow_nonneg hx _) (key.symm ▸ h1)

/-- C4: for every channel value in `[0,1]`, the sRGB pair of
`transforms.rs` round-trips to within `1e-5`, and the simple-gamma pair
round-trips exactly (hence within the same tolerance). -/
theorem transfer_roundtrip (c : ℝ) (h0 : 0 ≤ c) (hc1 : c ≤ 1) :
    |Transforms.rgb_to_srgb (Transforms.srgb_to_rgb c) - c| ≤ 1e-5 ∧
    |Transforms.rgb_to_gamma (Transforms.gamma_to_rgb c) - c| ≤ 1e-5 := by
  constructor
  · rw [Transforms.srgb_to_rgb]
    by_cases hc : c ≤ 0.04045
    · rw [if_pos hc, Transforms.rgb_to_srgb]
      by_cases hu : c / 12.92 ≤ 0.0031308
      · rw [if_pos hu]
        have hcc : (12.92:ℝ) * (c / 12.92) = c := by
          rw [mul_comm, div_mul_cancel₀ c (by norm_num : (12.92:ℝ) ≠ 0)]
        rw [hcc]
        simp
        norm_num
      · rw [if_neg hu]
        push_neg at hu
        have hc0 : (0.040449936:ℝ) < c := by
          have h2 := (lt_div_iff₀ (by norm_num : (0:ℝ) < 12.92)).mp hu
          norm_num at h2
          linarith
        have hunn : (0:ℝ) ≤ c / 12.92 := by positivity
        have hupper : c / 12.92 ≤ (0.04045:ℝ) / 12.92 := by gcongr
        have h5 : ((1:ℝ)/2.4) = ((5:ℕ):ℝ)/((12:ℕ):ℝ) := by norm_num
        have hx1 : (c / 12.92) ^ ((1:ℝ)/2.4) ≤ (0.095459936 / 1.055 : ℝ) := by
          rw [h5, rpow_div_le_iff_pow _ _ 5 12 (by norm_num) hunn (by norm_num)]
          calc (c / 12.92) ^ (5:ℕ) ≤ ((0.04045:ℝ) / 12.92) ^ (5:ℕ) :=
                pow_le_pow_left₀ hunn hupper 5
            _ ≤ ((0.095459936:ℝ) / 1.055) ^ (12:ℕ) := by norm_num
        have hx2 : (0.09544 / 1.055 : ℝ) ≤ (c / 12.92) ^ ((1:ℝ)/2.4) := by
          rw [h5, le_rpow_div_iff_pow _ _ 5 12 (by norm_num) hunn (by norm_num)]
          calc ((0.09544:ℝ) / 1.055) ^ (12:ℕ) ≤ (0.0031308:ℝ) ^ (5:ℕ) := by norm_num
            _ ≤ (c / 12.92) ^ (5:ℕ) :=
                pow_le_pow_left₀ (by norm_num) (le_of_lt hu) 5
        rw [abs_le]
        constructor
        · linarith [hx2, hc]
        · linarith [hx1, hc0]
    · rw [if_neg hc]
      push_neg at hc
      have hone : (1:ℝ) + 0.055 = 1.055 := by norm_num
      rw [hone]
      have hvpos : (0:ℝ) < (c + 0.055) / 1.055 := by
        apply div_pos
        · linarith
        · norm_num
      have hvmin : (0.09545 / 1.055 : ℝ) < (c + 0.055) / 1.055 := by
        gcongr
        linarith
      have h12 : (2.4:ℝ) = ((12:ℕ):ℝ)/((5:ℕ):ℝ) := by norm_num
      have hm : (0.003130807 : ℝ) ≤ ((0.09545:ℝ) / 1.055) ^ (2.4:ℝ) := by
        rw [h12, le_rpow_div_iff_pow _ _ 12 5 (by norm_num) (by norm_num) (by norm_num)]
        norm_num
      have hmono : ((0.09545:ℝ) / 1.055) ^ (2.4:ℝ) ≤ (((c + 0.055)) / 1.055) ^ (2.4:ℝ) :=
        Real.rpow_le_rpow (by norm_num) (le_of_lt hvmin) (by norm_num)
      have hfc : (0.0031308:ℝ) < ((c + 0.055) / 1.055) ^ (2.4:ℝ) := by
        calc (0.0031308:ℝ) < 0.003130807 := by norm_num
          _ ≤ ((0.09545:ℝ) / 1.055) ^ (2.4:ℝ) := hm
          _ ≤ _ := hmono
      rw [Transforms.rgb_to_srgb, if_neg (not_le.mpr hfc)]
      have hcomp : (((c + 0.055) / 1.055) ^ (2.4:ℝ)) ^ ((1:ℝ)/2.4) = (c + 0.055) / 1.055 := by
        rw [← Real.rpow_mul (le_of_lt hvpos)]
        norm_num
      rw [hcomp]
      have hlin : (1 + 0.055:ℝ) * ((c + 0.055) / 1.055) - 0.055 = c := by
        field_simp
        ring
      rw [hlin]
      simp
      norm_num
  · rw [Transforms.gamma_to_rgb, Transforms.rgb_to_gamma, ← Real.rpow_mul h0]
    have he : (2.2:ℝ) * ((1:ℝ)/2.2) = 1 := by norm_num
    rw [he, Real.rpow_one]
    simp
    norm_num

/-- C4 witness: the round-trip bound at the concrete channel value `1/2`. -/
theorem transfer_roundtrip_witness :
    |Transforms.rgb_to_srgb (Transforms.srgb_to_rgb (1/2)) - 1/2| ≤ 1e-5 ∧
    |Transforms.rgb_to_gamma (Transforms.gamma_to_rgb (1/2)) - 1/2| ≤ 1e-5 :=
  transfer_roundtrip (1/2) (by norm_num) (by norm_num)
